import Mathlib

/-!
Verification of the latin-macronizer data-preparation and macronization
pipeline. Strings are embedded as lists of characters (`Str`); Python
functions become Lean functions over `Str`. The endings-table generation
follows src/extractlexicon.py; the small helpers it calls from the
`postags` module, and the macronizer-side operations, are modelled from
the specification (each such definition says so in its doc comment).
-/

abbrev Str := List Char

/-- Modelled from the spec: a macron glyph for each vowel (glossary:
macron marks the long vowels ā ē ī ō ū ȳ). A character with no macron
form is returned unchanged. -/
def addMacronGlyph : Char → Char
  | 'a' => 'ā'
  | 'e' => 'ē'
  | 'i' => 'ī'
  | 'o' => 'ō'
  | 'u' => 'ū'
  | 'y' => 'ȳ'
  | 'A' => 'Ā'
  | 'E' => 'Ē'
  | 'I' => 'Ī'
  | 'O' => 'Ō'
  | 'U' => 'Ū'
  | 'Y' => 'Ȳ'
  | c => c

/-- Modelled from the spec: strip a macron or breve diacritic from a single
precomposed glyph (glossary: macron ā ē ī ō ū ȳ, breve ă ĕ ĭ ŏ ŭ); any other
character is unchanged. -/
def stripAccent : Char → Char
  | 'ā' => 'a'
  | 'ē' => 'e'
  | 'ī' => 'i'
  | 'ō' => 'o'
  | 'ū' => 'u'
  | 'ȳ' => 'y'
  | 'Ā' => 'A'
  | 'Ē' => 'E'
  | 'Ī' => 'I'
  | 'Ō' => 'O'
  | 'Ū' => 'U'
  | 'Ȳ' => 'Y'
  | 'ă' => 'a'
  | 'ĕ' => 'e'
  | 'ĭ' => 'i'
  | 'ŏ' => 'o'
  | 'ŭ' => 'u'
  | 'Ă' => 'A'
  | 'Ĕ' => 'E'
  | 'Ĭ' => 'I'
  | 'Ŏ' => 'O'
  | 'Ŭ' => 'U'
  | c => c

/-- Modelled from the spec: postags.removemacrons maps every macron- or
breve-bearing glyph of a string back to the bare letter. -/
def removemacrons (s : Str) : Str := s.map stripAccent

/-- Modelled from the spec: postags.unicodeaccents converts the in-band
marker notation of an accented form into precomposed glyphs: a vowel
immediately followed by the macron mark is replaced by the corresponding
macron-bearing character; everything else is kept as written. -/
def unicodeaccents : Str → Str
  | [] => []
  | c :: '_' :: rest =>
      if addMacronGlyph c ≠ c then addMacronGlyph c :: unicodeaccents rest
      else c :: unicodeaccents ('_' :: rest)
  | c :: rest => c :: unicodeaccents rest

/-- Modelled from the spec: postags.escape_macrons writes a precomposed
macron glyph back in the in-band notation (one glyph becomes the bare
letter followed by the macron mark). -/
def escapeChar : Char → Str
  | 'ā' => ['a', '_']
  | 'ē' => ['e', '_']
  | 'ī' => ['i', '_']
  | 'ō' => ['o', '_']
  | 'ū' => ['u', '_']
  | 'ȳ' => ['y', '_']
  | 'Ā' => ['A', '_']
  | 'Ē' => ['E', '_']
  | 'Ī' => ['I', '_']
  | 'Ō' => ['O', '_']
  | 'Ū' => ['U', '_']
  | 'Ȳ' => ['Y', '_']
  | c => [c]

/-- Modelled from the spec: postags.escape_macrons over a whole string. -/
def escape_macrons (s : Str) : Str := s.flatMap escapeChar

/-- The marker cleanup of create_lexicon_and_endings_data
(src/extractlexicon.py line 31): the left-to-right removal of every
ambiguous-quantity marker pair, as accented.replace of the two-character
marker with the empty string does. -/
def removeAmbiguousMarks : Str → Str
  | '_' :: '^' :: rest => removeAmbiguousMarks rest
  | c :: rest => c :: removeAmbiguousMarks rest
  | [] => []

/-- The second replace of src/extractlexicon.py line 31: every remaining
breve mark is dropped. -/
def removeBreveMarks (s : Str) : Str := s.filter (fun c => c ≠ '^')

/-- The accented form as create_lexicon_and_endings_data stores it in
tag_to_accents (src/extractlexicon.py lines 31-32). -/
def cleanAccented (s : Str) : Str :=
  unicodeaccents (removeBreveMarks (removeAmbiguousMarks s))

/-- The accent data gathered for one tag from the (tag, accented) pairs of
the macrons.txt lines (src/extractlexicon.py lines 29-32). -/
def accentsForTag (lines : List (Str × Str)) (tag : Str) : List Str :=
  (lines.filter (fun l => l.1 == tag)).map (fun l => cleanAccented l.2)

/-- The suffix cuts one accented form contributes to ending_freqs
(src/extractlexicon.py lines 44-46): the last i characters, for
i in range(1, min(len(accented) - 3, 12)). -/
def endingsOf (accented : Str) : List Str :=
  (List.range' 1 (min (accented.length - 3) 12 - 1)).map
    (fun i => accented.drop (accented.length - i))

/-- Every suffix cut of every accented form of one tag, with multiplicity
(the multiset whose counts are ending_freqs). -/
def allEndings (accents : List Str) : List Str := accents.flatMap endingsOf

/-- ending_freqs[e] (src/extractlexicon.py lines 42-46): the number of
suffix cuts equal to e. -/
def endingFreq (accents : List Str) (e : Str) : Nat :=
  List.count e (allEndings accents)

/-- ending_freqs.get(e, 1) (src/extractlexicon.py line 52): the stored
count when e was observed, and the default 1 otherwise. -/
def endingFreqGetD (accents : List Str) (e : Str) : Nat :=
  if e ∈ allEndings accents then endingFreq accents e else 1

/-- The relevance test of src/extractlexicon.py lines 48-53: the first
character must differ from its macron-stripped form, and the observed
frequency must exceed ending_freqs.get of the un-macronized counterpart
with default 1. -/
def isRelevantEnding (accents : List Str) (e : Str) : Bool :=
  decide (e.head? ≠ (removemacrons e).head?) &&
  decide (endingFreqGetD accents (removemacrons e) < endingFreq accents e)

/-- relevant_endings for one tag (src/extractlexicon.py lines 47-53): the
distinct observed endings that pass the relevance test. -/
def relevantEndings (accents : List Str) : List Str :=
  ((allEndings accents).dedup).filter (isRelevantEnding accents)

/-- The sort key of src/extractlexicon.py line 56, as a total order:
x precedes y when x is longer, or equally long and lexicographically no
greater. -/
def endingOrder (x y : Str) : Prop :=
  y.length < x.length ∨ (x.length = y.length ∧ x ≤ y)

instance : DecidableRel endingOrder := fun x y => by
  unfold endingOrder; infer_instance

instance : IsTotal Str endingOrder := by
  constructor
  intro x y
  rcases lt_trichotomy x.length y.length with h | h | h
  · exact Or.inr (Or.inl h)
  · rcases le_total x y with h2 | h2
    · exact Or.inl (Or.inr ⟨h, h2⟩)
    · exact Or.inr (Or.inr ⟨h.symm, h2⟩)
  · exact Or.inl (Or.inl h)

instance : IsTrans Str endingOrder := by
  constructor
  intro x y z hxy hyz
  rcases hxy with h1 | ⟨h1, h2⟩
  · rcases hyz with h3 | ⟨h3, h4⟩
    · exact Or.inl (h3.trans h1)
    · exact Or.inl (h3 ▸ h1)
  · rcases hyz with h3 | ⟨h3, h4⟩
    · exact Or.inl (h1 ▸ h3)
    · exact Or.inr ⟨h1.trans h3, h2.trans h4⟩

/-- sorted(relevant_endings, key=lambda x: (-len(x), x))
(src/extractlexicon.py line 56). -/
def sortedRelevantEndings (accents : List Str) : List Str :=
  List.insertionSort endingOrder (relevantEndings accents)

/-- The cleaned list written for one tag into macronized_endings.py
(src/extractlexicon.py lines 54-58). -/
def tagEndings (accents : List Str) : List Str :=
  (sortedRelevantEndings accents).map escape_macrons

/-- Modelled from the spec: an ASCII letter, the character class the
aligner treats as a letter (spec 4.6; accented forms use "ASCII letters
plus two in-band markers"). -/
def isAsciiLetter (c : Char) : Bool :=
  (('a' ≤ c) && (c ≤ 'z')) || (('A' ≤ c) && (c ≤ 'Z'))

/-- Modelled from the spec: the normalization used by the skeleton check
(spec 4.6): lowercase, identifying v with u when perform_uv is set and
j with i when perform_ij is set. -/
def normalizeChar (uv ij : Bool) (c : Char) : Char :=
  let d := c.toLower
  if uv && (d == 'v') then 'u'
  else if ij && (d == 'j') then 'i'
  else d

/-- Modelled from the spec: the letter-only, lowercased, normalized
skeleton of a string (spec 4.6 and glossary). -/
def skeleton (uv ij : Bool) (s : Str) : Str :=
  (s.filter isAsciiLetter).map (normalizeChar uv ij)

/-- Modelled from the spec: the per-letter substitution of the aligner
(spec 4.6): the surface letter is emitted preserving its case, with
u to v when perform_uv is set and the accented form shows v, and i to j
when perform_ij is set and the accented form shows j. -/
def substChar (uv ij : Bool) (sChar fChar : Char) : Char :=
  if uv && ((fChar == 'v') || (fChar == 'V')) then
    (if sChar == 'u' then 'v' else if sChar == 'U' then 'V' else sChar)
  else if ij && ((fChar == 'j') || (fChar == 'J')) then
    (if sChar == 'i' then 'j' else if sChar == 'I' then 'J' else sChar)
  else sChar

/-- Modelled from the spec: the next letter of the accented form and what
follows it; in-band markers before it are skipped. -/
def nextLetterF : Str → Option (Char × Str)
  | [] => none
  | c :: rest => if isAsciiLetter c then some (c, rest) else nextLetterF rest

/-- Modelled from the spec: the parallel walk of the aligner (spec 4.6).
Non-letter surface characters are emitted verbatim without advancing the
accented form; an aligned letter pair emits the substituted surface
letter, plus a macron mark when do_macronize is set and the accented
letter is immediately followed by one (an ambiguous marker pair emits
nothing); when the surface is exhausted, remaining macron marks in the
accented form are appended collapsed to at most one. -/
def alignChars (dm uv ij : Bool) : Str → Str → Str
  | [], f => if dm && f.contains '_' then ['_'] else []
  | s :: ss, f =>
    if isAsciiLetter s then
      match nextLetterF f with
      | none => s :: alignChars dm uv ij ss []
      | some (fc, rest) =>
        match rest with
        | '_' :: '^' :: r => substChar uv ij s fc :: alignChars dm uv ij ss r
        | '_' :: r =>
            if dm then substChar uv ij s fc :: '_' :: alignChars dm uv ij ss r
            else substChar uv ij s fc :: alignChars dm uv ij ss r
        | '^' :: r => substChar uv ij s fc :: alignChars dm uv ij ss r
        | r => substChar uv ij s fc :: alignChars dm uv ij ss r
    else s :: alignChars dm uv ij ss f

/-- Modelled from the spec: the output sanitation of the aligner
(spec 4.6): every run of consecutive macron marks is folded to one. -/
def squashUnderscores : Str → Str
  | [] => []
  | c :: rest =>
    let r := squashUnderscores rest
    if c = '_' ∧ r.head? = some '_' then r else c :: r

/-- Modelled from the spec: the closed set of short-j stems of the
also_maius rule (spec 4.6 abbreviates the enumerated list as
"rej, sej, quoj, etc."; the model carries the three named ones). -/
def shortJStems : List Str :=
  [("rej").toList, ("sej").toList, ("quoj").toList]

/-- Modelled from the spec: a plain vowel letter. -/
def isPlainVowel (c : Char) : Bool :=
  (['a', 'e', 'i', 'o', 'u', 'y', 'A', 'E', 'I', 'O', 'U', 'Y'] : Str).contains c

/-- Modelled from the spec: the scan of the also_maius rule, carrying the
already-processed part of the accented form: at a vowel immediately
followed by j whose preceding substring up to and including that j is not
a listed short-j stem, a macron mark is inserted after the vowel. -/
def maiusGo (pre : Str) : Str → Str
  | [] => []
  | [a] => [a]
  | a :: b :: rest =>
    if isPlainVowel a && ((b == 'j') || (b == 'J')) &&
        !(shortJStems.contains (pre ++ [a, b])) then
      a :: '_' :: maiusGo (pre ++ [a]) (b :: rest)
    else
      a :: maiusGo (pre ++ [a]) (b :: rest)

/-- Modelled from the spec: the also_maius rewrite of the accented form
(spec 4.6), applied before alignment when the flag is set together with
perform_ij. -/
def maiusTransform (f : Str) : Str := maiusGo [] f

/-- Modelled from the spec: the accented form the aligner actually works
on — the also_maius rewrite is applied before alignment when the flag is
set together with perform_ij (spec 4.6). -/
def effectiveAccented (am ij : Bool) (accented : Str) : Str :=
  if am && ij then maiusTransform accented else accented

/-- Modelled from the spec: Token.macronize (the aligner, spec 4.6).
Bails out returning the surface when the normalized skeletons differ,
and otherwise aligns and sanitizes the output. -/
def macronizeToken (surface accented : Str) (dm am uv ij : Bool) : Str :=
  if skeleton uv ij surface ≠ skeleton uv ij (effectiveAccented am ij accented)
  then surface
  else squashUnderscores (alignChars dm uv ij surface (effectiveAccented am ij accented))

/-- Whether a string contains two consecutive macron marks. -/
def hasDoubleUnderscore : Str → Bool
  | a :: b :: rest =>
      (decide (a = '_') && decide (b = '_')) || hasDoubleUnderscore (b :: rest)
  | _ => false

/-- Modelled from the spec: a vowel letter, possibly macron- or
breve-bearing (used by the evaluator). -/
def isVowelChar (c : Char) : Bool :=
  (['a', 'e', 'i', 'o', 'u', 'y'] : Str).contains ((stripAccent c).toLower)

/-- Modelled from the spec: the HTML marking of one wrong vowel in the
evaluator's output. -/
def spanWrong (c : Char) : Str :=
  ("<span class=\"wrong\">").toList ++ [c] ++ ("</span>").toList

/-- The aligned character pairs the evaluator counts as vowels (the gold
character decides vowelhood). -/
def vowelPairs (gold macronized : Str) : List (Char × Char) :=
  (gold.zip macronized).filter (fun p => isVowelChar p.1)

/-- The vowel pairs whose gold and macronized characters disagree. -/
def wrongPairs (gold macronized : Str) : List (Char × Char) :=
  (vowelPairs gold macronized).filter (fun p => p.1 ≠ p.2)

/-- Modelled from the spec: the per-vowel accuracy the evaluator reports;
with no vowels there is nothing to be wrong about and accuracy is 1. -/
def accuracyOf (gold macronized : Str) : ℚ :=
  if (vowelPairs gold macronized).length = 0 then 1
  else 1 - ((wrongPairs gold macronized).length : ℚ) /
    ((vowelPairs gold macronized).length : ℚ)

/-- Modelled from the spec: the evaluator's HTML rendering of the
macronized text, each wrongly marked vowel wrapped in a span. -/
def htmlOf (gold macronized : Str) : Str :=
  (gold.zip macronized).flatMap (fun p =>
    if isVowelChar p.1 ∧ p.1 ≠ p.2 then spanWrong p.2 else [p.2])

/-- Modelled from the spec: macronizer.evaluate (spec 1, 7, 8). Raises
InvalidArgumentError("Text mismatch") when the macron-stripped skeletons
of the gold and macronized strings differ; otherwise reports per-vowel
accuracy together with the HTML rendering. -/
def evaluate (gold macronized : Str) : Except String (ℚ × Str) :=
  if removemacrons gold = removemacrons macronized then
    .ok (accuracyOf gold macronized, htmlOf gold macronized)
  else .error "Text mismatch"

/-- The count of position-wise mismatches between two equally long tags. -/
def mismatches : Str → Str → Nat
  | a :: as, b :: bs => (if a = b then 0 else 1) + mismatches as bs
  | _, _ => 0

/-- Modelled from the spec: postags.tag_distance (spec 3 and 8): the count
of position-wise mismatches, defined only for tags of equal length 9 or
12; any other length pair raises ValueError. -/
def tag_distance (t1 t2 : Str) : Except String Nat :=
  if t1.length = t2.length ∧ (t1.length = 9 ∨ t1.length = 12) then
    .ok (mismatches t1 t2)
  else .error "Mismatched or invalid tag lengths"

/-- A row of the persistent lexicon table (spec 6): nullable fields mark
an unknown entry. -/
structure DbRow where
  wordform : Str
  morphtag : Option Str
  lemmaName : Option Str
  accented : Option Str
deriving DecidableEq

/-- Modelled from the spec: what the storage layer does when
Wordlist.loadwordfromdb queries it — it returns rows, or fails with a
storage-layer error, or a non-storage (programming) error is raised. -/
inductive StorageOutcome where
  | rows (found : List DbRow)
  | storageError (msg : String)
  | progError (msg : String)
deriving DecidableEq

/-- The observable result of Wordlist.loadwordfromdb. -/
inductive LoadResult where
  | ok (found : List DbRow)
  | databaseError (msg : String)
  | uncaught (msg : String)
deriving DecidableEq

/-- Modelled from the spec: the failure policy of Wordlist.loadwordfromdb
(spec 4.2): a storage error is reported as a DatabaseError carrying the
underlying failure message; a non-storage error propagates unchanged. -/
def loadwordfromdb (outcome : StorageOutcome) : LoadResult :=
  match outcome with
  | .rows r => .ok r
  | .storageError m => .databaseError ("Query failed: " ++ m)
  | .progError m => .uncaught m

instance exceptDecEq {ε α : Type} [DecidableEq ε] [DecidableEq α] :
    DecidableEq (Except ε α) := fun x y =>
  match x, y with
  | .ok a, .ok b =>
      match decEq a b with
      | isTrue h => isTrue (by rw [h])
      | isFalse h => isFalse (by intro hc; injection hc; exact h (by assumption))
  | .error a, .error b =>
      match decEq a b with
      | isTrue h => isTrue (by rw [h])
      | isFalse h => isFalse (by intro hc; injection hc; exact h (by assumption))
  | .ok _, .error _ => isFalse (by intro hc; exact Except.noConfusion hc)
  | .error _, .ok _ => isFalse (by intro hc; exact Except.noConfusion hc)

/-- Modelled from the spec: the options of one feature value of a
morpheus analysis string — a value containing slashes stands for each of
its slash-separated alternatives (spec 4.3). -/
def splitSlash : Str → List Str
  | [] => [[]]
  | c :: rest =>
    let r := splitSlash rest
    if c = '/' then [] :: r
    else (c :: r.headD []) :: r.tail

/-- Modelled from the spec: the slash expansion of morpheus_to_parses
(spec 4.3): an analysis whose feature values contain slashes expands into
the cartesian product of the alternatives, all other features kept. -/
def expandFeatures : List (Str × Str) → List (List (Str × Str))
  | [] => [[]]
  | (k, v) :: rest =>
      (splitSlash v).flatMap (fun opt =>
        (expandFeatures rest).map (fun r => (k, opt) :: r))

/-- A syllable quantity of the scansion engine (spec 4.7). -/
inductive Quantity where
  | L
  | S
deriving DecidableEq

/-- Modelled from the spec: the variant expansion of one candidate
accented form (spec 4.7 step 1): a macron mark reads as L, a plain vowel
as S, and an ambiguous marker pair as both (long variant enumerated
first), each variant paired with the accented form it resolves to. -/
def expandVariants : Str → List (Str × List Quantity)
  | [] => [([], [])]
  | c :: rest =>
    if isPlainVowel c then
      match rest with
      | '_' :: '^' :: r =>
          ((expandVariants r).map (fun p => (c :: '_' :: p.1, Quantity.L :: p.2))) ++
            ((expandVariants r).map (fun p => (c :: p.1, Quantity.S :: p.2)))
      | '_' :: r => (expandVariants r).map (fun p => (c :: '_' :: p.1, Quantity.L :: p.2))
      | '^' :: r => (expandVariants r).map (fun p => (c :: '^' :: p.1, Quantity.S :: p.2))
      | r => (expandVariants r).map (fun p => (c :: p.1, Quantity.S :: p.2))
    else (expandVariants rest).map (fun p => (c :: p.1, p.2))

/-- Modelled from the spec: the ranked variant pool of one word
(spec 4.7 step 2): every variant of the candidate at index i carries base
rank i, so ambiguous-quantity variants of one candidate share its rank. -/
def rankedVariants (cands : List Str) : List (Str × List Quantity × Nat) :=
  cands.enum.flatMap (fun p =>
    (expandVariants p.2).map (fun v => (v.1, v.2, p.1)))

/-- A scansion automaton as the tests shape it: a transition table from
(state, quantity) to (next state, emitted quantity, cost). -/
abbrev Automaton := List ((Nat × Quantity) × (Nat × Quantity × Nat))

/-- Transition lookup in the automaton table. -/
def autoLookup (a : Automaton) (key : Nat × Quantity) : Option (Nat × Quantity × Nat) :=
  match a with
  | [] => none
  | (k, v) :: rest => if k = key then some v else autoLookup rest key

/-- Modelled from the spec: the cost of scanning one quantity sequence
from a state; none when some transition is missing (no accepting path). -/
def runAuto (a : Automaton) : Nat → List Quantity → Option Nat
  | _, [] => some 0
  | st, q :: qs =>
    match autoLookup a (st, q) with
    | none => none
    | some (st2, _, cost) =>
      match runAuto a st2 qs with
      | none => none
      | some rest => some (cost + rest)

/-- The accepted variants of the word with their total objective
base_candidate_rank + scansion_cost (spec 4.7 step 2). -/
def scoredScans (cands : List Str) (a : Automaton) : List (Str × Nat) :=
  (rankedVariants cands).filterMap (fun v =>
    match runAuto a 0 v.2.1 with
    | none => none
    | some cost => some (v.1, v.2.2 + cost))

/-- The minimum-objective entry, the earliest enumerated winning ties. -/
def bestScan : List (Str × Nat) → Option (Str × Nat)
  | [] => none
  | p :: rest =>
    match bestScan rest with
    | none => some p
    | some q => if q.2 < p.2 then some q else some p

/-- Modelled from the spec: Tokenization.scanverses restricted to a
one-word tokenization (spec 4.7): the chosen accented form becomes the
variant of the best accepted scan, and stays the first candidate when no
scan is accepted. -/
def scanChoice (cands : List Str) (a : Automaton) : Str :=
  match bestScan (scoredScans cands a) with
  | some p => p.1
  | none => cands.headD []

/-- The neutral automaton of the tests: any quantity, zero cost. -/
def neutralAuto : Automaton :=
  [((0, Quantity.L), (0, Quantity.L, 0)), ((0, Quantity.S), (0, Quantity.S, 0))]

/-- The short-preferring automaton of the tests: cost 5 on L, 0 on S. -/
def shortPrefAuto : Automaton :=
  [((0, Quantity.S), (0, Quantity.S, 0)), ((0, Quantity.L), (0, Quantity.L, 5))]

theorem mem_relevantEndings {accents : List Str} {e : Str} :
    e ∈ relevantEndings accents ↔
      e ∈ allEndings accents ∧
      e.head? ≠ (removemacrons e).head? ∧
      endingFreqGetD accents (removemacrons e) < endingFreq accents e := by
  unfold relevantEndings isRelevantEnding
  simp [List.mem_filter, List.mem_dedup, and_assoc]

theorem relevant_count_strict {accents : List Str} {e : Str}
    (h : e ∈ relevantEndings accents) :
    endingFreq accents (removemacrons e) < endingFreq accents e := by
  rcases mem_relevantEndings.mp h with ⟨hall, hhead, hfreq⟩
  unfold endingFreqGetD at hfreq
  split at hfreq
  · exact hfreq
  · rename_i hnot
    have h0 : endingFreq accents (removemacrons e) = 0 :=
      List.count_eq_zero.mpr hnot
    omega

theorem endingsOf_spec {a e : Str} (h : e ∈ endingsOf a) :
    e <:+ a ∧ 1 ≤ e.length ∧ e.length ≤ 11 ∧ e.length + 3 < a.length := by
  unfold endingsOf at h
  rcases List.mem_map.mp h with ⟨i, hi, rfl⟩
  rcases List.mem_range'.mp hi with ⟨k, hk, rfl⟩
  refine ⟨List.drop_suffix _ _, ?_, ?_, ?_⟩ <;>
    rw [List.length_drop] <;> omega

example : cleanAccented ("le^gi^o_").toList = ("legiō").toList := by decide

example : endingsOf ("legiō").toList = [("ō").toList] := by decide

example :
    tagEndings (accentsForTag
      [(("n").toList, ("le^gi^o_").toList), (("n").toList, ("legio").toList)]
      (("n").toList)) = [] := by decide

example :
    tagEndings [("abcdē").toList, ("abcdē").toList] = [("e_").toList] := by decide

theorem underscore_not_letter : isAsciiLetter '_' = false := by decide

theorem filter_isAsciiLetter_maiusGo (l : Str) :
    ∀ pre, (maiusGo pre l).filter isAsciiLetter = l.filter isAsciiLetter := by
  induction l with
  | nil => intro pre; rfl
  | cons a rest ih =>
    intro pre
    cases rest with
    | nil => rfl
    | cons b t =>
      show List.filter isAsciiLetter
          (if isPlainVowel a && ((b == 'j') || (b == 'J')) &&
              !(shortJStems.contains (pre ++ [a, b])) then
            a :: '_' :: maiusGo (pre ++ [a]) (b :: t)
          else a :: maiusGo (pre ++ [a]) (b :: t)) =
        List.filter isAsciiLetter (a :: b :: t)
      split
      · simp only [List.filter_cons, underscore_not_letter, ih (pre ++ [a])]
        simp
      · simp only [List.filter_cons, ih (pre ++ [a])]

theorem skeleton_effectiveAccented (uv ij am : Bool) (f : Str) :
    skeleton uv ij (effectiveAccented am ij f) = skeleton uv ij f := by
  unfold effectiveAccented
  split
  · unfold skeleton maiusTransform
    rw [filter_isAsciiLetter_maiusGo f []]
  · rfl

theorem squash_no_double (s : Str) :
    hasDoubleUnderscore (squashUnderscores s) = false := by
  induction s with
  | nil => rfl
  | cons c rest ih =>
    show hasDoubleUnderscore
        (if c = '_' ∧ (squashUnderscores rest).head? = some '_'
         then squashUnderscores rest else c :: squashUnderscores rest) = false
    split
    · exact ih
    · rename_i hcond
      cases hr : squashUnderscores rest with
      | nil => rfl
      | cons b t =>
        rw [hr] at ih
        show ((decide (c = '_') && decide (b = '_')) || hasDoubleUnderscore (b :: t)) = false
        rw [ih, Bool.or_false]
        by_cases hc : c = '_'
        · have hb : b ≠ '_' := by
            intro hb
            exact hcond ⟨hc, by rw [hr, hb]; simp⟩
          simp [hb]
        · simp [hc]

theorem mismatches_comm (t1 t2 : Str) : mismatches t1 t2 = mismatches t2 t1 := by
  induction t1 generalizing t2 with
  | nil => cases t2 <;> rfl
  | cons a as ih =>
    cases t2 with
    | nil => rfl
    | cons b bs =>
      show (if a = b then 0 else 1) + mismatches as bs =
        (if b = a then 0 else 1) + mismatches bs as
      rw [ih]
      congr 1
      by_cases h : a = b
      · rw [if_pos h, if_pos h.symm]
      · rw [if_neg h, if_neg (fun hc => h hc.symm)]

theorem mismatches_eq_countP (t1 t2 : Str) (h : t1.length = t2.length) :
    mismatches t1 t2 =
      (List.range t1.length).countP (fun i => decide (t1.get? i ≠ t2.get? i)) := by
  induction t1 generalizing t2 with
  | nil => rfl
  | cons a as ih =>
    cases t2 with
    | nil => exact absurd h (by simp)
    | cons b bs =>
      have hlen : as.length = bs.length := by simpa using h
      show (if a = b then 0 else 1) + mismatches as bs = _
      rw [ih bs hlen, List.length_cons, List.range_succ_eq_map,
        List.countP_cons, List.countP_map]
      have hcomp :
          ((fun i => decide ((a :: as).get? i ≠ (b :: bs).get? i)) ∘ Nat.succ) =
          (fun i => decide (as.get? i ≠ bs.get? i)) := by
        funext i
        rfl
      rw [hcomp]
      by_cases hab : a = b
      · subst hab
        have hd : (decide ((a :: as).get? 0 ≠ (a :: bs).get? 0)) = false := by
          simp
        rw [if_pos rfl, hd]
        simp
      · have hd : (decide ((a :: as).get? 0 ≠ (b :: bs).get? 0)) = true := by
          simp [hab]
        rw [if_neg hab, hd]
        simp [Nat.add_comm]

theorem zip_self (s : Str) : s.zip s = s.map (fun c => (c, c)) := by
  induction s with
  | nil => rfl
  | cons a l ih => rw [List.map_cons, List.zip_cons_cons, ih]

theorem flatMap_id_singleton {α : Type} (l : List α) :
    l.flatMap (fun x => [x]) = l := by
  induction l with
  | nil => rfl
  | cons a t ih => simp [List.flatMap_cons, ih]

/-- Claim C1: for every tag in the endings table generated by
create_lexicon_and_endings_data, the list of macronized suffixes is
ordered longest first with ties broken lexicographically (the relation
endingOrder), and a macronized suffix is included only when its observed
frequency is strictly greater than the observed frequency of its
un-macronized counterpart. The table entry written for the tag is
tagEndings, the in-band rendering of this sorted list. -/
theorem endings_table_sorted_and_strictly_frequent
    (macronLines : List (Str × Str)) (tag : Str) :
    (sortedRelevantEndings (accentsForTag macronLines tag)).Pairwise endingOrder ∧
    ∀ e ∈ sortedRelevantEndings (accentsForTag macronLines tag),
      endingFreq (accentsForTag macronLines tag) (removemacrons e) <
        endingFreq (accentsForTag macronLines tag) e := by
  constructor
  · exact List.sorted_insertionSort endingOrder _
  · intro e he
    rw [sortedRelevantEndings, List.mem_insertionSort] at he
    exact relevant_count_strict he

/-- Claim C9: in create_lexicon_and_endings_data, a macronized ending
whose un-macronized counterpart never occurs for the same tag is included
only when it is observed at least twice: the frequency comparison
defaults a missing counterpart to 1, so a single occurrence never
suffices. -/
theorem unobserved_counterpart_needs_two
    (macronLines : List (Str × Str)) (tag : Str) (e : Str)
    (hmem : e ∈ relevantEndings (accentsForTag macronLines tag))
    (hzero : endingFreq (accentsForTag macronLines tag) (removemacrons e) = 0) :
    2 ≤ endingFreq (accentsForTag macronLines tag) e := by
  rcases mem_relevantEndings.mp hmem with ⟨hall, hhead, hfreq⟩
  have hnot : removemacrons e ∉ allEndings (accentsForTag macronLines tag) :=
    List.count_eq_zero.mp hzero
  unfold endingFreqGetD at hfreq
  rw [if_neg hnot] at hfreq
  omega

/-- Witness for C9: for the tag "n" with the accented form "abcdē"
observed twice, the ending "ē" has an unobserved counterpart "e" and is
included on its two observations. -/
theorem unobserved_counterpart_needs_two_witness :
    2 ≤ endingFreq (accentsForTag
      [(("n").toList, ("abcde_").toList), (("n").toList, ("abcde_").toList)]
      (("n").toList)) (("ē").toList) :=
  unobserved_counterpart_needs_two _ _ _ (by decide) (by decide)

/-- Claim C10: every suffix in the generated endings table begins with a
macron-bearing character (its first character differs from its
macron-stripped form), has length at most 11, and is a suffix of an
accented form longer than it by more than 3 characters; accented forms
of 4 or fewer characters contribute no suffixes at all. -/
theorem relevant_endings_shape
    (macronLines : List (Str × Str)) (tag : Str) (e : Str)
    (hmem : e ∈ relevantEndings (accentsForTag macronLines tag)) :
    e.head? ≠ (removemacrons e).head? ∧
    e.length ≤ 11 ∧
    (∃ a ∈ accentsForTag macronLines tag, e <:+ a ∧ e.length + 3 < a.length) ∧
    ∀ a : Str, a.length ≤ 4 → endingsOf a = [] := by
  rcases mem_relevantEndings.mp hmem with ⟨hall, hhead, _⟩
  unfold allEndings at hall
  rcases List.mem_flatMap.mp hall with ⟨a, ha, he⟩
  rcases endingsOf_spec he with ⟨hsuf, h1, h11, hlong⟩
  refine ⟨hhead, h11, ⟨a, ha, hsuf, hlong⟩, ?_⟩
  intro b hb
  unfold endingsOf
  have h0 : min (b.length - 3) 12 - 1 = 0 := by omega
  rw [h0]
  rfl

/-- Witness for C10: the concrete tag data of the C9 witness, at the
included ending "ē". -/
theorem relevant_endings_shape_witness :
    (("ē").toList).head? ≠ (removemacrons (("ē").toList)).head? ∧
    (("ē").toList).length ≤ 11 ∧
    (∃ a ∈ accentsForTag
        [(("n").toList, ("abcde_").toList), (("n").toList, ("abcde_").toList)]
        (("n").toList), ("ē").toList <:+ a ∧ (("ē").toList).length + 3 < a.length) ∧
    ∀ a : Str, a.length ≤ 4 → endingsOf a = [] :=
  relevant_endings_shape _ _ _ (by decide)

/-- Claim C2: for every surface word, chosen accented form and flag
setting, Token.macronize returns the surface unchanged when the
letter-only lowercased skeletons (identifying u with v under perform_uv
and i with j under perform_ij) differ; when they agree, alignment
proceeds: "amica" against "ami_cus" bails out unchanged, while "Iulius"
against "ju_lius" under perform_ij aligns to "Ju_lius". -/
theorem macronize_skeleton_check :
    (∀ (S F : Str) (dm am uv ij : Bool),
        skeleton uv ij S ≠ skeleton uv ij F →
        macronizeToken S F dm am uv ij = S) ∧
    macronizeToken ("amica").toList ("ami_cus").toList true false false false =
      ("amica").toList ∧
    macronizeToken ("Iulius").toList ("ju_lius").toList true false false true =
      ("Ju_lius").toList := by
  refine ⟨?_, by decide, by decide⟩
  intro S F dm am uv ij h
  unfold macronizeToken
  rw [skeleton_effectiveAccented]
  exact if_pos h

/-- Claim C3: in Token.macronize with do_macronize enabled, macron marks
remaining in the accented form after the last aligned letter pair are
appended collapsed to at most one mark, and when the skeleton check
passes the final output never contains two consecutive macron marks:
"porta" with "porta_" yields "porta_" and "causa" with the malformed
"ca_usa__" yields "ca_usa_". -/
theorem macronize_trailing_collapse :
    (∀ (S F : Str) (am uv ij : Bool),
        skeleton uv ij S = skeleton uv ij F →
        hasDoubleUnderscore (macronizeToken S F true am uv ij) = false) ∧
    macronizeToken ("porta").toList ("porta_").toList true false false false =
      ("porta_").toList ∧
    macronizeToken ("causa").toList ("ca_usa__").toList true false false false =
      ("ca_usa_").toList := by
  refine ⟨?_, by decide, by decide⟩
  intro S F am uv ij h
  unfold macronizeToken
  rw [skeleton_effectiveAccented]
  rw [if_neg (fun hne => hne h)]
  exact squash_no_double _

/-- Claim C4: tag_distance returns the count of differing positions for
tags of equal length 9 or 12 (and is symmetric there), and raises
ValueError for every other combination of lengths. -/
theorem tag_distance_spec :
    (∀ t1 t2 : Str, t1.length = t2.length → (t1.length = 9 ∨ t1.length = 12) →
        tag_distance t1 t2 =
          .ok ((List.range t1.length).countP
            (fun i => decide (t1.get? i ≠ t2.get? i))) ∧
        tag_distance t1 t2 = tag_distance t2 t1) ∧
    (∀ t1 t2 : Str, ¬ (t1.length = t2.length ∧ (t1.length = 9 ∨ t1.length = 12)) →
        tag_distance t1 t2 = .error "Mismatched or invalid tag lengths") ∧
    tag_distance ("v1spia---").toList ("v3spia---").toList = .ok 1 ∧
    tag_distance ("v1spia---").toList ("V--piap-s---").toList =
      .error "Mismatched or invalid tag lengths" := by
  refine ⟨?_, ?_, by decide, by decide⟩
  · intro t1 t2 h1 h2
    constructor
    · unfold tag_distance
      rw [if_pos ⟨h1, h2⟩]
      rw [mismatches_eq_countP t1 t2 h1]
    · unfold tag_distance
      rw [if_pos ⟨h1, h2⟩, if_pos ⟨h1.symm, h1 ▸ h2⟩]
      rw [mismatches_comm]
  · intro t1 t2 h
    unfold tag_distance
    rw [if_neg h]

/-- Claim C5: evaluate raises InvalidArgumentError("Text mismatch")
whenever the macron-stripped skeletons differ (such as "arma" against
"arms"); otherwise it returns per-vowel accuracy with an HTML marking of
wrong vowels: "canō" against "cano" gives accuracy 1/2 with the wrong
vowel wrapped in a span, and equal strings with no vowels give
accuracy 1. -/
theorem evaluate_spec :
    (∀ gold macronized : Str,
        removemacrons gold ≠ removemacrons macronized →
        evaluate gold macronized = .error "Text mismatch") ∧
    evaluate ("canō").toList ("cano").toList =
      .ok ((1 : ℚ)/2, ("can<span class=\"wrong\">o</span>").toList) ∧
    evaluate ("arma").toList ("arms").toList = .error "Text mismatch" ∧
    (∀ s : Str, (∀ c ∈ s, isVowelChar c = false) →
        evaluate s s = .ok (1, s)) := by
  refine ⟨?_, ?_, by decide, ?_⟩
  · intro gold macronized h
    unfold evaluate
    rw [if_neg h]
  · unfold evaluate
    rw [if_pos (by decide)]
    have h1 : (vowelPairs (("canō").toList) (("cano").toList)).length = 2 := by decide
    have h2 : (wrongPairs (("canō").toList) (("cano").toList)).length = 1 := by decide
    have hacc : accuracyOf (("canō").toList) (("cano").toList) = (1 : ℚ)/2 := by
      unfold accuracyOf
      rw [h1, h2]
      norm_num
    have hhtml : htmlOf (("canō").toList) (("cano").toList) =
        ("can<span class=\"wrong\">o</span>").toList := by decide
    rw [hacc, hhtml]
  · intro s hs
    unfold evaluate
    rw [if_pos rfl]
    have hz : s.zip s = s.map (fun c => (c, c)) := zip_self s
    have hv : vowelPairs s s = [] := by
      unfold vowelPairs
      rw [hz, List.filter_map]
      have hf : s.filter ((fun p : Char × Char => isVowelChar p.1) ∘ (fun c => (c, c))) = [] := by
        rw [List.filter_eq_nil_iff]
        intro c hc
        simp [Function.comp, hs c hc]
      rw [hf]
      rfl
    have hacc : accuracyOf s s = 1 := by
      unfold accuracyOf
      rw [hv]
      rfl
    have hhtml : htmlOf s s = s := by
      unfold htmlOf
      rw [hz, List.flatMap_map]
      have hfun : (fun c : Char =>
          if isVowelChar (c, c).1 ∧ (c, c).1 ≠ (c, c).2
          then spanWrong (c, c).2 else [(c, c).2]) = fun c : Char => [c] := by
        funext c
        rw [if_neg]
        intro hcc
        exact hcc.2 rfl
      rw [hfun]
      exact flatMap_id_singleton s
    rw [hacc, hhtml]

/-- Claim C6: when the lexicon store reads a word, a storage-layer error
is surfaced as a DatabaseError carrying the underlying failure message,
while a non-storage exception propagates unchanged and is never
rewrapped as a DatabaseError. -/
theorem loadwordfromdb_error_policy :
    (∀ m : String, ∃ m2 : String,
        loadwordfromdb (.storageError m) = .databaseError m2 ∧
        m.toList <:+ m2.toList) ∧
    (∀ m : String, loadwordfromdb (.progError m) = .uncaught m) ∧
    (∀ (o : StorageOutcome) (m2 : String),
        loadwordfromdb o = .databaseError m2 → ∃ m, o = .storageError m) := by
  refine ⟨?_, fun m => rfl, ?_⟩
  · intro m
    refine ⟨"Query failed: " ++ m, rfl, ?_⟩
    show m.toList <:+ ("Query failed: " ++ m).data
    rw [String.data_append]
    exact List.suffix_append _ _
  · intro o m2 h
    cases o with
    | rows r => exact absurd h (by simp [loadwordfromdb])
    | storageError m => exact ⟨m, rfl⟩
    | progError m => exact absurd h (by simp [loadwordfromdb])

/-- Claim C7: a feature value containing slashes expands the analysis
into one parse per combination; with several slashed features the number
of parses is the cartesian product of the option counts (3 genders times
2 cases giving 6), all combinations are present, and the other features
are kept identical. -/
theorem slash_expansion_cartesian :
    (∀ fs : List (Str × Str),
        (expandFeatures fs).length =
          (fs.map (fun kv => (splitSlash kv.2).length)).prod) ∧
    (∀ (fs combo : List (Str × Str)),
        combo ∈ expandFeatures fs ↔
          List.Forall₂ (fun kv rkv => rkv.1 = kv.1 ∧ rkv.2 ∈ splitSlash kv.2)
            fs combo) ∧
    (expandFeatures [(("gender").toList, ("masc/fem/neut").toList),
        (("case").toList, ("nom/voc").toList)]).length = 6 ∧
    (∀ g c : Str, g ∈ splitSlash (("masc/fem/neut").toList) →
        c ∈ splitSlash (("nom/voc").toList) →
        [(("gender").toList, g), (("case").toList, c)] ∈
          expandFeatures [(("gender").toList, ("masc/fem/neut").toList),
            (("case").toList, ("nom/voc").toList)]) := by
  have hlen : ∀ fs : List (Str × Str),
      (expandFeatures fs).length =
        (fs.map (fun kv => (splitSlash kv.2).length)).prod := by
    intro fs
    induction fs with
    | nil => rfl
    | cons kv rest ih =>
      rcases kv with ⟨k, v⟩
      show ((splitSlash v).flatMap fun opt =>
          (expandFeatures rest).map (fun r => (k, opt) :: r)).length = _
      rw [List.length_flatMap]
      have hmap : (List.map (List.length ∘ fun opt =>
          (expandFeatures rest).map (fun r => (k, opt) :: r)) (splitSlash v)) =
          List.replicate (splitSlash v).length (expandFeatures rest).length := by
        rw [show (List.length ∘ fun opt : Str =>
            (expandFeatures rest).map (fun r => (k, opt) :: r)) =
            Function.const Str (expandFeatures rest).length from ?_,
          List.map_const]
        funext opt
        simp [Function.comp, List.length_map]
      rw [hmap, List.sum_replicate, smul_eq_mul, ih, List.map_cons, List.prod_cons]
  have hmem : ∀ (fs combo : List (Str × Str)),
      combo ∈ expandFeatures fs ↔
        List.Forall₂ (fun kv rkv => rkv.1 = kv.1 ∧ rkv.2 ∈ splitSlash kv.2)
          fs combo := by
    intro fs
    induction fs with
    | nil =>
      intro combo
      rw [List.forall₂_nil_left_iff]
      show combo ∈ [[]] ↔ combo = []
      simp
    | cons kv rest ih =>
      rcases kv with ⟨k, v⟩
      intro combo
      constructor
      · intro h
        rcases List.mem_flatMap.mp h with ⟨opt, hopt, hmm⟩
        rcases List.mem_map.mp hmm with ⟨r, hr, rfl⟩
        exact List.Forall₂.cons ⟨rfl, hopt⟩ ((ih r).mp hr)
      · intro h
        cases h with
        | cons hhead htail =>
          rename_i rkv rtail
          rcases rkv with ⟨k2, v2⟩
          rcases hhead with ⟨hk, hv⟩
          cases hk
          refine List.mem_flatMap.mpr ⟨v2, hv, ?_⟩
          exact List.mem_map.mpr ⟨rtail, (ih rtail).mpr htail, rfl⟩
  refine ⟨hlen, hmem, by decide, ?_⟩
  intro g c hg hc
  refine (hmem _ _).mpr ?_
  exact List.Forall₂.cons ⟨rfl, hg⟩ (List.Forall₂.cons ⟨rfl, hc⟩ List.Forall₂.nil)

/-- Claim C8: in the scansion engine, the long and short variants
expanded from one ambiguous candidate share that candidate's base rank
(every variant of the candidate at index i enters the pool with rank i);
with a neutral automaton the first candidate stays chosen — the long
variant of an ambiguous one — and a large enough automaton cost on L
makes the engine choose the short variant, or a lower-ranked candidate
when the meter penalty exceeds the rank difference. -/
theorem scanverses_shared_rank :
    (∀ (cands : List Str) (i : Nat) (cand : Str), cands[i]? = some cand →
        ∀ v ∈ expandVariants cand, (v.1, v.2, i) ∈ rankedVariants cands) ∧
    scanChoice [("ba_^").toList] neutralAuto = ("ba_").toList ∧
    scanChoice [("ba_").toList, ("ba").toList] neutralAuto = ("ba_").toList ∧
    scanChoice [("ba_^").toList, ("ba_").toList] neutralAuto = ("ba_").toList ∧
    scanChoice [("ba_^").toList] shortPrefAuto = ("ba").toList ∧
    scanChoice [("ba_").toList, ("ba").toList] shortPrefAuto = ("ba").toList := by
  refine ⟨?_, by decide, by decide, by decide, by decide, by decide⟩
  intro cands i cand hget v hv
  unfold rankedVariants
  refine List.mem_flatMap.mpr ⟨(i, cand), ?_, ?_⟩
  · exact List.mem_enum_iff_getElem?.mpr hget
  · exact List.mem_map.mpr ⟨v, hv, rfl⟩
